import Mathlib

/-!
Shallow embedding of the `tui-checkbox` widget (src/src/lib.rs).

Conventions of the embedding:
* Terminal cell counts (`u16` in the source) are modeled as `Nat`.  The source
  widens `usize` character counts with `as u16` and adds with `+`/`saturating_sub`;
  widths in every claim stay far below `2 ^ 16`, where the cast is the identity,
  and checked `u16` addition would abort rather than wrap before any claim-relevant
  difference could appear.  Rust `saturating_sub` is exactly `Nat` subtraction.
* `ratatui` is the external collaborator.  Its `Style` is modeled with two
  optional attributes (`fg`, `bg`); `Style::patch` treats every attribute the
  same way, so two representative attributes suffice for the merge structure.
  A `ratatui::text::Line` is modeled as its list of styled spans; the line-level
  style field is not modeled because every `Line` the widget paints is built
  with `Line::from(Vec<Span>)`, whose line-level style is the default (the
  `patch_style(label_style)` result in `render_checkbox` is discarded when the
  spans are copied into `owned_label`).
* The optional `Block` decoration is part of the excluded external framework
  (the widget merely delegates to it), so the modeled render entry point is the
  `render_checkbox` pipeline together with the base-style fill performed by
  `Widget::render` for `&Checkbox`.
* A string is modeled as `List Char`; `str::split(' ')` (which keeps empty
  segments) is modeled by `splitOnSpace`; `word.chars().count()` is
  `List.length`.
-/

namespace TuiCheckbox

/-- The space character (code point 32), the separator `wrap_text` splits on. -/
def spaceChar : Char := Char.ofNat 32

/-- External `ratatui::style::Style`, reduced to two optional attributes.
`Style::patch` handles every attribute field independently in the same way,
so the merge behavior is fully represented. -/
structure Style where
  fg : Option Nat
  bg : Option Nat
deriving DecidableEq

/-- Source `Style::patch`: an attribute set in the override replaces the base value,
an unset attribute falls through to the base. -/
def Style.patch (a b : Style) : Style :=
  ⟨match b.fg with | some c => some c | none => a.fg,
   match b.bg with | some c => some c | none => a.bg⟩

/-- Source `Style::default()`: no attribute set. -/
def styleDefault : Style := ⟨none, none⟩

/-- External `ratatui::text::Span`: a run of text with one style. -/
structure Span where
  content : List Char
  style : Style
deriving DecidableEq

/-- External `ratatui::text::Line`: an ordered sequence of styled spans. -/
structure Line where
  spans : List Span
deriving DecidableEq

/-- Width of a span in cells: `word.chars().count()` / `Span::width`
(character count; the glyphs and labels of the claims are one column per
character). -/
def spanWidth (s : Span) : Nat := s.content.length

/-- Total width of a list of spans. -/
def widthSpans (L : List Span) : Nat := (L.map (fun s => s.content.length)).sum

/-- Source `Line::width`: sum of the character counts of the spans. -/
def lineWidth (l : Line) : Nat := widthSpans l.spans

/-- Source `label_lines.iter().map(|l| l.width()).max().unwrap_or(0)`. -/
def maxLineWidth (ls : List Line) : Nat := (ls.map lineWidth).foldr max 0

/-- Concatenated text of a list of spans. -/
def spansText (L : List Span) : List Char := (L.map Span.content).flatten

/-- Concatenated text of a line. -/
def lineText (l : Line) : List Char := spansText l.spans

/-- Concatenated text of a sequence of lines. -/
def linesText (ls : List Line) : List Char := (ls.map lineText).flatten

/-- Remove every space character. -/
def nonSpace : List Char → List Char
  | [] => []
  | c :: r => if c = spaceChar then nonSpace r else c :: nonSpace r

/-- Rust `str::split(' ')` on a character list: splits at every space and keeps
empty segments (`"".split(' ')` yields one empty segment). -/
def splitOnSpace : List Char → List (List Char)
  | [] => [[]]
  | c :: rest =>
    if c = spaceChar then [] :: splitOnSpace rest
    else
      match splitOnSpace rest with
      | [] => [[c]]
      | w :: ws => (c :: w) :: ws

/-- Rejoin split segments with single spaces (the inverse of `splitOnSpace`). -/
def joinSp : List (List Char) → List Char
  | [] => []
  | w :: ws => w ++ ws.flatMap (fun v => spaceChar :: v)

/-- The span sequence `wrap_text` rebuilds from a word list of one styled run:
the words interleaved with single-space spans, all carrying the run's style. -/
def wordsToSpans (sty : Style) : List (List Char) → List Span
  | [] => []
  | w :: ws => ⟨w, sty⟩ :: ws.flatMap (fun v => [⟨[spaceChar], sty⟩, ⟨v, sty⟩])

/-- The mutable locals of `wrap_text`'s loop: `result`, `current_line`,
`current_width`. -/
structure WrapState where
  result : List Line
  currentLine : List Span
  currentWidth : Nat
deriving DecidableEq

/-- One iteration of the inner word loop of `wrap_text` (src/src/lib.rs:839-857).
`first` is `i == 0` of `words.iter().enumerate()`. -/
def stepWord (m : Nat) (sty : Style) (first : Bool) (st : WrapState)
    (w : List Char) : WrapState :=
  let word_width := w.length
  let space_width : Nat := if first = false ∨ st.currentLine ≠ [] then 1 else 0
  let st1 : WrapState :=
    if st.currentWidth + space_width + word_width > m ∧ st.currentLine ≠ [] then
      ⟨st.result ++ [⟨st.currentLine⟩], [], 0⟩
    else st
  let st2 : WrapState :=
    if first = false then
      ⟨st1.result, st1.currentLine ++ [⟨[spaceChar], sty⟩], st1.currentWidth + 1⟩
    else st1
  ⟨st2.result, st2.currentLine ++ [⟨w, sty⟩], st2.currentWidth + word_width⟩

/-- The word loop over the words of one span. -/
def stepWords (m : Nat) (sty : Style) : WrapState → Bool → List (List Char) → WrapState
  | st, _, [] => st
  | st, first, w :: ws => stepWords m sty (stepWord m sty first st w) false ws

/-- The body of `for span in &line.spans` in `wrap_text`. -/
def stepSpan (m : Nat) (st : WrapState) (sp : Span) : WrapState :=
  stepWords m sp.style st true (splitOnSpace sp.content)

/-- Source `Checkbox::wrap_text` (src/src/lib.rs:820-875): greedy word wrap of one
styled line into lines of width at most `m`, with the zero-width early return
and the empty-result fallback. -/
def wrap_text (line : Line) (m : Nat) : List Line :=
  if m = 0 then [line]
  else
    let st := line.spans.foldl (stepSpan m) ⟨[], [], 0⟩
    let result := if st.currentLine ≠ [] then st.result ++ [⟨st.currentLine⟩] else st.result
    if result = [] then [line] else result

/-- Source `LabelPosition` (src/src/lib.rs:62-72). -/
inductive LabelPosition where
  | Right
  | Left
  | Top
  | Bottom
deriving DecidableEq

/-- Source `HorizontalAlignment` (src/src/lib.rs:76-84). -/
inductive HorizontalAlignment where
  | Left
  | Center
  | Right
deriving DecidableEq

/-- Source `VerticalAlignment` (src/src/lib.rs:88-96). -/
inductive VerticalAlignment where
  | Top
  | Center
  | Bottom
deriving DecidableEq

/-- The tri-way horizontal offset rule (`match self.horizontal_alignment`):
0, centered by floor division, or flush right; `Nat` subtraction is the
source's `saturating_sub`. -/
def hAlignOffset (a : HorizontalAlignment) (avail content : Nat) : Nat :=
  match a with
  | HorizontalAlignment.Left => 0
  | HorizontalAlignment.Center => (avail - content) / 2
  | HorizontalAlignment.Right => avail - content

/-- The tri-way vertical offset rule (`match self.vertical_alignment`). -/
def vAlignOffset (a : VerticalAlignment) (avail content : Nat) : Nat :=
  match a with
  | VerticalAlignment.Top => 0
  | VerticalAlignment.Center => (avail - content) / 2
  | VerticalAlignment.Bottom => avail - content

/-- The width-constraint block of `render_checkbox` (src/src/lib.rs:551-560):
`render_area.width` starts at the inner area's width, the `min_width`
constraint is applied first (`max`), the `max_width` constraint second
(`min`), and the result is re-clamped to the physical width. -/
def workingWidth (area_width : Nat) (min_width max_width : Option Nat) : Nat :=
  let w1 := match min_width with | some m => max area_width m | none => area_width
  let w2 := match max_width with | some m => min w1 m | none => w1
  min w2 area_width

/-- Modelled from the spec, for comparison with `workingWidth`: the clamp
algorithm exactly as §4.5 words it — "start from `inner_area.width`; if
`maxWidth` is set, `width = min(width, maxWidth)`; if `minWidth` is set,
`width = max(width, minWidth)`; finally `width = min(width, inner_area.width)`"
(the `maxWidth` clamp before the `minWidth` clamp). -/
def claimedWorkingWidth (area_width : Nat) (min_width max_width : Option Nat) : Nat :=
  let w1 := match max_width with | some m => min area_width m | none => area_width
  let w2 := match min_width with | some m => max w1 m | none => w1
  min w2 area_width

/-- External `ratatui::layout::Rect` with `Nat` coordinates. -/
structure Rect where
  x : Nat
  y : Nat
  width : Nat
  height : Nat
deriving DecidableEq

/-- One terminal cell: a symbol and its style. -/
structure Cell where
  symbol : Char
  style : Style
deriving DecidableEq

/-- One paint call: a styled line rendered into a rectangle
(`Line::render(rect, buf)` in the source). -/
structure PaintOp where
  rect : Rect
  line : Line
deriving DecidableEq

/-- The external cell buffer, as a total map from coordinates to cells. -/
abbrev Buffer := Nat → Nat → Cell

/-- A buffer of default-styled blank cells. -/
def emptyBuffer : Buffer := fun _ _ => ⟨spaceChar, styleDefault⟩

/-- The `Checkbox` configuration (src/src/lib.rs:130-159).  The optional
`block` field belongs to the excluded external decoration collaborator and is
not modeled. -/
structure Checkbox where
  label : Line
  checked : Bool
  style : Style
  checkbox_style : Style
  label_style : Style
  checked_symbol : List Char
  unchecked_symbol : List Char
  label_position : LabelPosition
  horizontal_alignment : HorizontalAlignment
  vertical_alignment : VerticalAlignment
  min_width : Option Nat
  max_width : Option Nat
  wrap_label : Bool
deriving DecidableEq

/-- Flatten a line into the chars each paint writes, tagged with the span
style that is patched onto the target cell. -/
def flattenLine (l : Line) : List (Char × Style) :=
  l.spans.flatMap (fun s => s.content.map (fun c => (c, s.style)))

/-- Write a row of styled chars starting at `(x, y)`; each write sets the
cell's symbol and patches the span style onto the cell's style
(`Cell::set_symbol` + `Cell::set_style`). -/
def writeRow : Buffer → Nat → Nat → List (Char × Style) → Buffer
  | b, _, _, [] => b
  | b, x, y, p :: rest =>
      writeRow
        (fun i j => if i = x ∧ j = y then ⟨p.1, (b x y).style.patch p.2⟩ else b i j)
        (x + 1) y rest

/-- Execute one paint call: the line's chars fill the rectangle's row,
truncated at the rectangle's width. -/
def paintOp (b : Buffer) (op : PaintOp) : Buffer :=
  writeRow b op.rect.x op.rect.y ((flattenLine op.line).take op.rect.width)

/-- Execute the paint calls in order. -/
def applyOps (b : Buffer) (ops : List PaintOp) : Buffer :=
  ops.foldl paintOp b

/-- External `Buffer::set_style(area, style)`: patch `style` onto every cell of the
rectangle. -/
def setStyleRect (r : Rect) (s : Style) (b : Buffer) : Buffer :=
  fun i j =>
    if r.x ≤ i ∧ i < r.x + r.width ∧ r.y ≤ j ∧ j < r.y + r.height then
      ⟨(b i j).symbol, (b i j).style.patch s⟩
    else b i j

/-- The guarded per-row label paint of `render_vertical`: the row is skipped
when it falls below the area, its horizontal offset is the tri-way rule on the
row's own width, and the rectangle spans the rest of the row
(src/src/lib.rs:737-757 and 794-814). -/
def vLineOp (ha : HorizontalAlignment) (area : Rect) (y : Nat) (l : Line) :
    Option PaintOp :=
  if y < area.y + area.height then
    some ⟨⟨area.x + hAlignOffset ha area.width (lineWidth l), y,
           area.width - hAlignOffset ha area.width (lineWidth l), 1⟩, l⟩
  else none

/-- The glyph rectangle of `render_vertical`: its own tri-way offset on the
glyph width, width clipped to the remaining row. -/
def vGlyphRect (ha : HorizontalAlignment) (area : Rect) (y w : Nat) : Rect :=
  ⟨area.x + hAlignOffset ha area.width w, y,
   min w (area.width - hAlignOffset ha area.width w), 1⟩

/-- Source `Checkbox::render_vertical` (src/src/lib.rs:705-818) as the ordered list
of paint calls it performs. -/
def render_vertical (cb : Checkbox) (area : Rect) (checkbox_span : Span)
    (label : Line) : List PaintOp :=
  if area.height = 0 ∨ area.width = 0 then []
  else
    let label_lines := if cb.wrap_label then wrap_text label area.width else [label]
    let checkbox_width := spanWidth checkbox_span
    let label_height := label_lines.length
    let y_offset := vAlignOffset cb.vertical_alignment area.height (1 + label_height)
    match cb.label_position with
    | LabelPosition.Top =>
        label_lines.enum.filterMap
          (fun p => vLineOp cb.horizontal_alignment area (area.y + y_offset + p.1) p.2) ++
        (if area.y + y_offset + label_height < area.y + area.height then
          [⟨vGlyphRect cb.horizontal_alignment area (area.y + y_offset + label_height)
              checkbox_width, ⟨[checkbox_span]⟩⟩]
        else [])
    | LabelPosition.Bottom =>
        ⟨vGlyphRect cb.horizontal_alignment area (area.y + y_offset) checkbox_width,
          ⟨[checkbox_span]⟩⟩ ::
        label_lines.enum.filterMap
          (fun p => vLineOp cb.horizontal_alignment area (area.y + y_offset + 1 + p.1) p.2)
    | _ => []

/-- Source `Checkbox::render_horizontal` (src/src/lib.rs:584-703) as the ordered list
of paint calls it performs. -/
def render_horizontal (cb : Checkbox) (area : Rect) (checkbox_span : Span)
    (label : Line) : List PaintOp :=
  if area.height = 0 ∨ area.width = 0 then []
  else
    let checkbox_width := spanWidth checkbox_span
    let space_width := 1
    let label_lines :=
      if cb.wrap_label then wrap_text label (area.width - (checkbox_width + space_width))
      else [label]
    let total_width :=
      if label_lines = [] then checkbox_width
      else checkbox_width + space_width + maxLineWidth label_lines
    let x_offset := hAlignOffset cb.horizontal_alignment area.width total_width
    let content_height := label_lines.length
    let y_offset := vAlignOffset cb.vertical_alignment area.height content_height
    match cb.label_position with
    | LabelPosition.Right =>
        if x_offset < area.width ∧ y_offset < area.height then
          ⟨⟨area.x + x_offset, area.y + y_offset,
            min checkbox_width (area.width - x_offset), 1⟩, ⟨[checkbox_span]⟩⟩ ::
          label_lines.enum.filterMap (fun p =>
            let label_x := area.x + x_offset + checkbox_width + space_width
            let label_y := area.y + y_offset + p.1
            if label_y < area.y + area.height ∧ label_x < area.x + area.width then
              some ⟨⟨label_x, label_y,
                     area.width - (x_offset + checkbox_width + space_width), 1⟩, p.2⟩
            else none)
        else []
    | LabelPosition.Left =>
        let max_label_width := maxLineWidth label_lines
        (label_lines.enum.filterMap (fun p =>
          let label_y := area.y + y_offset + p.1
          if label_y < area.y + area.height ∧ x_offset < area.width then
            some ⟨⟨area.x + x_offset, label_y,
                   min max_label_width (area.width - x_offset), 1⟩, p.2⟩
          else none)) ++
        (let checkbox_x := area.x + x_offset + max_label_width + space_width
         if checkbox_x < area.x + area.width ∧ y_offset < area.height then
           [⟨⟨checkbox_x, area.y + y_offset,
              min checkbox_width (area.width - (x_offset + max_label_width + space_width)),
              1⟩, ⟨[checkbox_span]⟩⟩]
         else [])
    | _ => []

/-- Source `Checkbox::render_checkbox` (src/src/lib.rs:534-582) as the ordered list
of paint calls it performs: empty-area early return, symbol selection, style
merging, width constraints, then dispatch on the label position.  The
line-level `patch_style(label_style)` of the source is dropped again when the
spans are copied into `owned_label`, so the label spans pass through
unchanged. -/
def render_checkbox (cb : Checkbox) (area : Rect) : List PaintOp :=
  if area.width = 0 ∨ area.height = 0 then []
  else
    let symbol := if cb.checked then cb.checked_symbol else cb.unchecked_symbol
    let checkbox_style := cb.style.patch cb.checkbox_style
    let render_area : Rect :=
      ⟨area.x, area.y, workingWidth area.width cb.min_width cb.max_width, area.height⟩
    let checkbox_span : Span := ⟨symbol, checkbox_style⟩
    let owned_label : Line := cb.label
    match cb.label_position with
    | LabelPosition.Right | LabelPosition.Left =>
        render_horizontal cb render_area checkbox_span owned_label
    | LabelPosition.Top | LabelPosition.Bottom =>
        render_vertical cb render_area checkbox_span owned_label

/-- The render entry point for `&Checkbox` (src/src/lib.rs:519-531) without a
decorative block: the whole area is filled with the base style, then the
checkbox's paint calls are executed. -/
def widgetRender (cb : Checkbox) (area : Rect) (b : Buffer) : Buffer :=
  applyOps (setStyleRect area cb.style b) (render_checkbox cb area)

/-- Read `n` consecutive cell symbols of row `y` starting at column `x`. -/
def readRow (b : Buffer) (x y n : Nat) : List Char :=
  (List.range n).map (fun i => (b (x + i) y).symbol)

/-- A produced wrap line that is a single word, possibly preceded by the one
separator space pushed after a flush; both spans carry the word's run style
and the word contains no space. -/
def shapeP (L : List Span) : Prop :=
  ∃ sty w, spaceChar ∉ w ∧
    (L = [⟨w, sty⟩] ∨ L = [⟨[spaceChar], sty⟩, ⟨w, sty⟩])

/-- Loop invariant of `wrap_text`: every flushed line is within the width
bound or an unsplit single word (with optional leading separator), the width
counter tracks the current line, and the current line satisfies the same
bound-or-single-word property. -/
def invOk (m : Nat) (st : WrapState) : Prop :=
  (∀ l ∈ st.result, lineWidth l ≤ m ∨ shapeP l.spans) ∧
  st.currentWidth = widthSpans st.currentLine ∧
  (widthSpans st.currentLine ≤ m ∨ shapeP st.currentLine)

/-- All text accumulated in a wrap state, flushed lines first. -/
def stateText (st : WrapState) : List Char :=
  linesText st.result ++ spansText st.currentLine

/-- Example checkbox of the render scenario: label `"Hi"`, checked, bracket
glyphs, default layout. -/
def cb7 : Checkbox :=
  { label := ⟨[⟨"Hi".toList, styleDefault⟩]⟩
    checked := true
    style := styleDefault
    checkbox_style := styleDefault
    label_style := styleDefault
    checked_symbol := "[X]".toList
    unchecked_symbol := "[ ]".toList
    label_position := LabelPosition.Right
    horizontal_alignment := HorizontalAlignment.Left
    vertical_alignment := VerticalAlignment.Top
    min_width := none
    max_width := none
    wrap_label := false }

/-- The 10-by-1 scenario area. -/
def rect10 : Rect := ⟨0, 0, 10, 1⟩

/-- The scenario buffer after rendering `cb7` into `rect10`. -/
def buf7 : Buffer := widgetRender cb7 rect10 emptyBuffer

/-- The scenario buffer after only the base-style fill. -/
def fill7 : Buffer := setStyleRect rect10 cb7.style emptyBuffer

/-- Single-run line `"ab cd"`: wrapping it at width 2 exhibits a line that
exceeds the bound without containing an overwide word. -/
def cexLine1 : Line := ⟨[⟨"ab cd".toList, styleDefault⟩]⟩

/-- The second line `wrap_text` produces for `cexLine1` at width 2: the
separator space followed by `"cd"`. -/
def cexLine1Out : Line := ⟨[⟨" ".toList, styleDefault⟩, ⟨"cd".toList, styleDefault⟩]⟩

/-- Two-run line `"ab"`/`"cd"` with no space: total width 4, yet wrapping at
width 4 splits it because a separator column is charged at the run boundary. -/
def cexLine4 : Line := ⟨[⟨"ab".toList, styleDefault⟩, ⟨"cd".toList, styleDefault⟩]⟩

/-- Vertical-layout example checkbox: label on top, centered. -/
def cbV : Checkbox :=
  { cb7 with label_position := LabelPosition.Top
             horizontal_alignment := HorizontalAlignment.Center }

/-- Vertical-layout example area. -/
def areaV : Rect := ⟨0, 0, 10, 3⟩

/-- Vertical-layout example glyph span. -/
def spV : Span := ⟨"[X]".toList, styleDefault⟩

/-- Vertical-layout example label line. -/
def lblV : Line := ⟨[⟨"Hi".toList, styleDefault⟩]⟩

/-- The glyph paint call `render_vertical` produces in the vertical example:
centered independently of the label row. -/
def opV : PaintOp := ⟨⟨3, 1, 3, 1⟩, ⟨[spV]⟩⟩

/-- Degenerate-area example: width 0. -/
def rect0 : Rect := ⟨0, 0, 0, 5⟩

/-! ## Helper lemmas -/

theorem nonSpace_append (a b : List Char) :
    nonSpace (a ++ b) = nonSpace a ++ nonSpace b := by
  induction a with
  | nil => rfl
  | cons c r ih =>
    by_cases hc : c = spaceChar <;> simp [nonSpace, hc, ih]

theorem nonSpace_space : nonSpace [spaceChar] = [] := by
  simp [nonSpace]

theorem nonSpace_idem (c : List Char) : nonSpace (nonSpace c) = nonSpace c := by
  induction c with
  | nil => rfl
  | cons ch r ih =>
    by_cases hc : ch = spaceChar <;> simp [nonSpace, hc, ih]

theorem spansText_append (a b : List Span) :
    spansText (a ++ b) = spansText a ++ spansText b := by
  simp [spansText]

theorem spansText_single (s : Span) : spansText [s] = s.content := by
  simp [spansText]

theorem linesText_append (a b : List Line) :
    linesText (a ++ b) = linesText a ++ linesText b := by
  simp [linesText]

theorem widthSpans_append (a b : List Span) :
    widthSpans (a ++ b) = widthSpans a + widthSpans b := by
  simp [widthSpans]

theorem splitOnSpace_ne_nil (c : List Char) : splitOnSpace c ≠ [] := by
  induction c with
  | nil => simp [splitOnSpace]
  | cons ch r ih =>
    simp only [splitOnSpace]
    split
    · simp
    · split <;> simp

theorem flatten_splitOnSpace (c : List Char) :
    (splitOnSpace c).flatten = nonSpace c := by
  induction c with
  | nil => rfl
  | cons ch r ih =>
    by_cases hch : ch = spaceChar
    · simp [splitOnSpace, nonSpace, hch, ih]
    · rcases hsp : splitOnSpace r with - | ⟨w, ws⟩
      · exact absurd hsp (splitOnSpace_ne_nil r)
      · rw [hsp] at ih
        simp [splitOnSpace, nonSpace, hch, hsp] at ih ⊢
        simp [ih]

theorem flatMap_space_cons (ps : List (List Char)) (h : ps ≠ []) :
    ps.flatMap (fun v => spaceChar :: v) = spaceChar :: joinSp ps := by
  rcases ps with - | ⟨w, ws⟩
  · exact absurd rfl h
  · simp [joinSp]

theorem joinSp_splitOnSpace (c : List Char) : joinSp (splitOnSpace c) = c := by
  induction c with
  | nil => rfl
  | cons ch r ih =>
    by_cases hch : ch = spaceChar
    · simp only [splitOnSpace, hch, if_pos]
      show joinSp ([] :: splitOnSpace r) = spaceChar :: r
      calc joinSp ([] :: splitOnSpace r)
          = (splitOnSpace r).flatMap (fun v => spaceChar :: v) := by simp [joinSp]
        _ = spaceChar :: joinSp (splitOnSpace r) :=
            flatMap_space_cons _ (splitOnSpace_ne_nil r)
        _ = spaceChar :: r := by rw [ih]
    · rcases hsp : splitOnSpace r with - | ⟨w, ws⟩
      · exact absurd hsp (splitOnSpace_ne_nil r)
      · rw [hsp] at ih
        simp only [splitOnSpace, hch, if_neg, hsp]
        simpa [joinSp] using ih

theorem splitOnSpace_no_space (c : List Char) :
    ∀ w ∈ splitOnSpace c, spaceChar ∉ w := by
  induction c with
  | nil =>
    intro w hw
    simp [splitOnSpace] at hw
    simp [hw]
  | cons ch r ih =>
    intro w hw
    by_cases hch : ch = spaceChar
    · simp [splitOnSpace, hch] at hw
      rcases hw with hw | hw
      · simp [hw]
      · exact ih w hw
    · rcases hsp : splitOnSpace r with - | ⟨u, us⟩
      · exact absurd hsp (splitOnSpace_ne_nil r)
      · simp [splitOnSpace, hch, hsp] at hw
        rcases hw with hw | hw
        · have hu : spaceChar ∉ u := ih u (by rw [hsp]; exact List.mem_cons_self u us)
          subst hw
          simp [hch, hu]
          intro hc
          exact hch hc.symm
        · exact ih w (by rw [hsp]; exact List.mem_cons_of_mem u hw)

theorem flatMap_pair_length (ws : List (List Char)) :
    (ws.flatMap (fun v => spaceChar :: v)).length = (ws.map (fun v => v.length + 1)).sum := by
  induction ws with
  | nil => rfl
  | cons w ws ih =>
    simp only [List.flatMap_cons, List.length_append, List.length_cons, ih,
      List.map_cons, List.sum_cons]

theorem joinSp_cons_length (w : List Char) (ws : List (List Char)) :
    (joinSp (w :: ws)).length = w.length + (ws.map (fun v => v.length + 1)).sum := by
  simp only [joinSp, List.length_append, flatMap_pair_length]

/-! ## Claim C5: zero wrap width returns the input line unchanged -/

/-- Claim C5 (confirmed): for every input line, `wrap_text` with `maxWidth = 0`
returns exactly the one-element sequence holding the input line — never an
empty result (and the Lean embedding is total, so there is no abnormal
termination to model). -/
theorem wrap_text_zero_width (l : Line) : wrap_text l 0 = [l] := rfl

/-! ## Claim C9: wrap is total and never returns an empty sequence -/

/-- Claim C9 (confirmed): for every input line (including span-less lines,
empty text and space-only text) and every `maxWidth`, `wrap_text` returns a
non-empty sequence; it is a total function by construction. -/
theorem wrap_text_ne_nil (l : Line) (m : Nat) : wrap_text l m ≠ [] := by
  simp only [wrap_text]
  split_ifs <;> simp_all

/-! ## Claim C2: order of the width clamps -/

/-- Claim C2 counterexample: at inner width 10, `minWidth = 20`,
`maxWidth = 5`, the renderer's clamp (`workingWidth`, the block at
src/src/lib.rs:551-560) yields 5, while the algorithm exactly as the claim
words it (`claimedWorkingWidth`: the `maxWidth` clamp applied before the
`minWidth` clamp) yields 10 — so the renderer does not compute the working
width by the claimed algorithm. -/
theorem workingWidth_order_cex :
    workingWidth 10 (some 20) (some 5) = 5 ∧
    claimedWorkingWidth 10 (some 20) (some 5) = 10 ∧
    workingWidth 10 (some 20) (some 5) ≠ claimedWorkingWidth 10 (some 20) (some 5) := by
  decide

/-- Claim C2 (corrected): the renderer computes the working width by this
exact algorithm: start from the inner area's width; if `minWidth` is set,
take the maximum of the width and `minWidth`; then, if `maxWidth` is set,
take the minimum of the width and `maxWidth`; finally take the minimum of the
result and the inner area's width — the `minWidth` clamp is applied before
the `maxWidth` clamp, and the result never exceeds the physically available
width. -/
theorem workingWidth_min_before_max (w lo hi : Nat) :
    workingWidth w (some lo) (some hi) = min (min (max w lo) hi) w ∧
    workingWidth w (some lo) none = min (max w lo) w ∧
    workingWidth w none (some hi) = min (min w hi) w ∧
    workingWidth w none none = w ∧
    workingWidth w (some lo) (some hi) ≤ w := by
  refine ⟨rfl, rfl, rfl, ?_, ?_⟩
  · simp [workingWidth]
  · exact Nat.min_le_right _ _

/-! ## Claim C3: clamp scenario 10 / 20 / 5 -/

/-- Claim C3 (confirmed): when the inner area width is 10, `minWidth` is 20
and `maxWidth` is 5, the effective working width the renderer uses
(`workingWidth`, applied by `render_checkbox` to build `render_area`) is 5. -/
theorem workingWidth_scenario :
    workingWidth 10 (some 20) (some 5) = 5 := by
  decide

/-! ## Counterexamples for claims C1 and C4 -/

/-- Claim C1 counterexample: wrapping the single-run line `"ab cd"` at
`maxWidth = 2` produces a line of width 3 (the separator space plus `"cd"`)
even though no span on that line — in particular no word — is wider than 2;
the claim's only permitted exception (a single word wider than `maxWidth`,
alone on its line) does not cover it. -/
theorem wrap_width_bound_cex :
    ∃ lo ∈ wrap_text cexLine1 2,
      2 < lineWidth lo ∧ ∀ sp ∈ lo.spans, sp.content.length ≤ 2 := by
  decide

/-- Claim C4 counterexample: the two-run line `cexLine4` (`"ab"` then `"cd"`,
no space anywhere) has total rendered width 4, yet `wrap_text` at
`maxWidth = 4` returns two lines, not the single input line: a separator
column is charged at the run boundary although no separator is inserted. -/
theorem wrap_idempotent_cex :
    lineWidth cexLine4 = 4 ∧
    (wrap_text cexLine4 4).length = 2 ∧
    wrap_text cexLine4 4 ≠ [cexLine4] := by
  decide

/-! ## Claim C1: width bound on wrapped lines -/

theorem stepWord_inv (m : Nat) (sty : Style) (first : Bool) (st : WrapState)
    (w : List Char) (hw : spaceChar ∉ w) (h : invOk m st) :
    invOk m (stepWord m sty first st w) := by
  obtain ⟨hres, hcw, hcl⟩ := h
  cases first
  case false =>
    by_cases hF : st.currentWidth + 1 + w.length > m ∧ st.currentLine ≠ []
    · have hstep : stepWord m sty false st w =
          ⟨st.result ++ [⟨st.currentLine⟩],
           [⟨[spaceChar], sty⟩, ⟨w, sty⟩], 1 + w.length⟩ := by
        simp [stepWord, hF]
      rw [hstep]
      refine ⟨?_, by simp [widthSpans], Or.inr ⟨sty, w, hw, Or.inr rfl⟩⟩
      intro l hl
      rcases List.mem_append.1 hl with h1 | h1
      · exact hres l h1
      · rw [List.mem_singleton.1 h1]
        exact hcl
    · have hstep : stepWord m sty false st w =
          ⟨st.result, st.currentLine ++ [⟨[spaceChar], sty⟩, ⟨w, sty⟩],
           st.currentWidth + 1 + w.length⟩ := by
        simp [stepWord, hF]
      rw [hstep]
      refine ⟨hres, ?_, ?_⟩
      · rw [hcw, widthSpans_append]
        simp [widthSpans]
        omega
      · by_cases hL : st.currentLine = []
        · right
          rw [hL]
          exact ⟨sty, w, hw, Or.inr rfl⟩
        · left
          have h1 : ¬ st.currentWidth + 1 + w.length > m := fun hc => hF ⟨hc, hL⟩
          rw [widthSpans_append, ← hcw]
          simp [widthSpans]
          omega
  case true =>
    by_cases hL : st.currentLine = []
    · have hstep : stepWord m sty true st w =
          ⟨st.result, [⟨w, sty⟩], st.currentWidth + w.length⟩ := by
        simp [stepWord, hL]
      rw [hstep]
      have hcw0 : st.currentWidth = 0 := by rw [hcw, hL]; rfl
      refine ⟨hres, ?_, Or.inr ⟨sty, w, hw, Or.inl rfl⟩⟩
      rw [hcw0]
      simp [widthSpans]
    · by_cases hF : st.currentWidth + 1 + w.length > m
      · have hstep : stepWord m sty true st w =
            ⟨st.result ++ [⟨st.currentLine⟩], [⟨w, sty⟩], w.length⟩ := by
          simp [stepWord, hL, hF]
        rw [hstep]
        refine ⟨?_, by simp [widthSpans], Or.inr ⟨sty, w, hw, Or.inl rfl⟩⟩
        intro l hl
        rcases List.mem_append.1 hl with h1 | h1
        · exact hres l h1
        · rw [List.mem_singleton.1 h1]
          exact hcl
      · have hstep : stepWord m sty true st w =
            ⟨st.result, st.currentLine ++ [⟨w, sty⟩], st.currentWidth + w.length⟩ := by
          simp [stepWord, hL, hF]
        rw [hstep]
        refine ⟨hres, ?_, ?_⟩
        · rw [hcw, widthSpans_append]
          simp [widthSpans]
        · left
          rw [widthSpans_append, ← hcw]
          simp [widthSpans]
          omega

theorem stepWords_inv (m : Nat) (sty : Style) :
    ∀ (ws : List (List Char)) (st : WrapState) (first : Bool),
      (∀ w ∈ ws, spaceChar ∉ w) → invOk m st →
      invOk m (stepWords m sty st first ws) := by
  intro ws
  induction ws with
  | nil =>
    intro st first _ h
    simpa [stepWords] using h
  | cons w ws ih =>
    intro st first hws h
    rw [stepWords]
    exact ih _ false (fun v hv => hws v (List.mem_cons_of_mem _ hv))
      (stepWord_inv m sty first st w (hws w (List.mem_cons_self _ _)) h)

theorem stepSpan_inv (m : Nat) (st : WrapState) (sp : Span) (h : invOk m st) :
    invOk m (stepSpan m st sp) :=
  stepWords_inv m sp.style (splitOnSpace sp.content) st true
    (splitOnSpace_no_space sp.content) h

theorem foldl_stepSpan_inv (m : Nat) (spans : List Span) :
    ∀ st, invOk m st → invOk m (spans.foldl (stepSpan m) st) := by
  induction spans with
  | nil => intro st h; exact h
  | cons s rest ih =>
    intro st h
    rw [List.foldl_cons]
    exact ih _ (stepSpan_inv m st s h)

theorem stepWord_currentLine_ne (m : Nat) (sty : Style) (first : Bool)
    (st : WrapState) (w : List Char) :
    (stepWord m sty first st w).currentLine ≠ [] := by
  simp [stepWord]

theorem stepWords_currentLine_ne (m : Nat) (sty : Style) :
    ∀ (ws : List (List Char)) (st : WrapState) (first : Bool), ws ≠ [] →
      (stepWords m sty st first ws).currentLine ≠ [] := by
  intro ws
  induction ws with
  | nil => intro st first h; exact absurd rfl h
  | cons w ws ih =>
    intro st first _
    rw [stepWords]
    rcases ws with - | ⟨v, vs⟩
    · simpa [stepWords] using stepWord_currentLine_ne m sty first st w
    · exact ih _ false (by simp)

theorem stepSpan_currentLine_ne (m : Nat) (st : WrapState) (sp : Span) :
    (stepSpan m st sp).currentLine ≠ [] :=
  stepWords_currentLine_ne m sp.style _ st true (splitOnSpace_ne_nil sp.content)

theorem foldl_stepSpan_currentLine_ne (m : Nat) :
    ∀ (spans : List Span) (st : WrapState), spans ≠ [] →
      (spans.foldl (stepSpan m) st).currentLine ≠ [] := by
  intro spans
  induction spans with
  | nil => intro st h; exact absurd rfl h
  | cons s rest ih =>
    intro st _
    rw [List.foldl_cons]
    rcases rest with - | ⟨t, ts⟩
    · simpa using stepSpan_currentLine_ne m st s
    · exact ih _ (by simp)

/-- Claim C1 (corrected): for every label line and every `maxWidth ≥ 1`, every
line produced by `wrap_text` has rendered width at most `maxWidth`, except a
line consisting of a single unsplit word — possibly preceded by the one
separator space inherited from the split — placed alone on its own line; no
word is ever split mid-word.  (The original claim allowed only a lone word
that is itself wider than `maxWidth`; the separator space can push a line one
column over the bound even when its word fits exactly, see
`wrap_width_bound_cex`.) -/
theorem wrap_lines_bounded (l : Line) (m : Nat) (hm : 1 ≤ m) :
    ∀ lo ∈ wrap_text l m, lineWidth lo ≤ m ∨ shapeP lo.spans := by
  intro lo hlo
  have hm0 : ¬ m = 0 := by omega
  have hInv : invOk m (l.spans.foldl (stepSpan m) ⟨[], [], 0⟩) :=
    foldl_stepSpan_inv m l.spans _
      ⟨by simp, by simp [widthSpans], Or.inl (by simp [widthSpans])⟩
  simp only [wrap_text, if_neg hm0] at hlo
  set st := l.spans.foldl (stepSpan m) ⟨[], [], 0⟩ with hst
  by_cases hL : st.currentLine = []
  · simp only [hL, ne_eq, not_true_eq_false, if_false] at hlo
    by_cases hR : st.result = []
    · rw [hR] at hlo
      simp at hlo
      have hsp : l.spans = [] := by
        by_contra hne
        exact foldl_stepSpan_currentLine_ne m l.spans ⟨[], [], 0⟩ hne (hst ▸ hL)
      rw [hlo]
      left
      simp [lineWidth, hsp, widthSpans]
    · rw [if_neg hR] at hlo
      exact hInv.1 lo hlo
  · simp only [hL, ne_eq, not_false_eq_true, if_true] at hlo
    have hne : ¬ st.result ++ [(⟨st.currentLine⟩ : Line)] = [] := by simp
    rw [if_neg hne] at hlo
    rcases List.mem_append.1 hlo with h1 | h1
    · exact hInv.1 lo h1
    · rw [List.mem_singleton.1 h1]
      exact hInv.2.2

/-- Claim C1 witness: the amended bound, instantiated on wrapping `"ab cd"`
at width 2 and its second output line. -/
theorem wrap_lines_bounded_witness :
    lineWidth cexLine1Out ≤ 2 ∨ shapeP cexLine1Out.spans :=
  wrap_lines_bounded cexLine1 2 (by decide) cexLine1Out (by decide)

/-! ## Claim C10: wrapping preserves the non-space characters -/

theorem stepWord_text (m : Nat) (sty : Style) (first : Bool) (st : WrapState)
    (w : List Char) :
    nonSpace (stateText (stepWord m sty first st w)) =
      nonSpace (stateText st) ++ nonSpace w := by
  simp only [stepWord]
  split_ifs <;>
    simp [stateText, linesText_append, spansText_append, spansText_single,
      nonSpace_append, nonSpace_space, lineText, linesText, spansText, nonSpace]

theorem stepWords_text (m : Nat) (sty : Style) :
    ∀ (ws : List (List Char)) (st : WrapState) (first : Bool),
      nonSpace (stateText (stepWords m sty st first ws)) =
        nonSpace (stateText st) ++ nonSpace ws.flatten := by
  intro ws
  induction ws with
  | nil => intro st first; simp [stepWords, nonSpace]
  | cons w ws ih =>
    intro st first
    rw [stepWords, ih, stepWord_text]
    simp [nonSpace_append]

theorem stepSpan_text (m : Nat) (st : WrapState) (sp : Span) :
    nonSpace (stateText (stepSpan m st sp)) =
      nonSpace (stateText st) ++ nonSpace sp.content := by
  rw [stepSpan, stepWords_text, flatten_splitOnSpace, nonSpace_idem]

theorem foldl_stepSpan_text (m : Nat) :
    ∀ (spans : List Span) (st : WrapState),
      nonSpace (stateText (spans.foldl (stepSpan m) st)) =
        nonSpace (stateText st) ++ nonSpace (spansText spans) := by
  intro spans
  induction spans with
  | nil => intro st; simp [spansText, nonSpace]
  | cons s rest ih =>
    intro st
    rw [List.foldl_cons, ih, stepSpan_text]
    have hs : spansText (s :: rest) = s.content ++ spansText rest := by
      simp [spansText]
    rw [hs, nonSpace_append, List.append_assoc]

/-- Claim C10 (confirmed): for every input line and every `maxWidth`, the
concatenated text of the lines `wrap_text` returns, with all spaces removed,
equals the input line's concatenated span text with all spaces removed —
wrapping never loses, duplicates or reorders a non-space character. -/
theorem wrap_text_preserves_nonspace (l : Line) (m : Nat) :
    nonSpace (linesText (wrap_text l m)) = nonSpace (lineText l) := by
  by_cases hm0 : m = 0
  · simp [wrap_text, hm0, linesText, lineText]
  · have hfold := foldl_stepSpan_text m l.spans ⟨[], [], 0⟩
    have hinit : stateText ⟨[], [], 0⟩ = [] := by
      simp [stateText, linesText, spansText]
    rw [hinit] at hfold
    simp only [nonSpace] at hfold
    simp only [wrap_text, if_neg hm0]
    set st := l.spans.foldl (stepSpan m) ⟨[], [], 0⟩ with hst
    by_cases hL : st.currentLine = []
    · simp only [hL, ne_eq, not_true_eq_false, if_false]
      by_cases hR : st.result = []
      · rw [hR]
        simp [linesText, lineText]
      · rw [if_neg hR]
        have : stateText st = linesText st.result := by
          simp [stateText, hL, spansText]
        rw [this] at hfold
        rw [hfold]
        exact (lineText l).nil_append ▸ rfl
    · simp only [hL, ne_eq, not_false_eq_true, if_true]
      have hne : ¬ st.result ++ [(⟨st.currentLine⟩ : Line)] = [] := by simp
      rw [if_neg hne]
      have : stateText st = linesText (st.result ++ [⟨st.currentLine⟩]) := by
        simp [stateText, linesText_append, linesText, lineText]
      rw [this] at hfold
      rw [hfold]
      simp [lineText]

/-! ## Claim C4: wrapping an already-short line -/

theorem stepWords_fits (m : Nat) (sty : Style) :
    ∀ (ws : List (List Char)) (st : WrapState), st.currentLine ≠ [] →
      st.currentWidth + (ws.map (fun v => v.length + 1)).sum ≤ m →
      stepWords m sty st false ws =
        ⟨st.result,
         st.currentLine ++ ws.flatMap (fun v => [⟨[spaceChar], sty⟩, ⟨v, sty⟩]),
         st.currentWidth + (ws.map (fun v => v.length + 1)).sum⟩ := by
  intro ws
  induction ws with
  | nil =>
    intro st h1 h2
    simp [stepWords]
  | cons w ws ih =>
    intro st h1 h2
    simp only [List.map_cons, List.sum_cons] at h2
    have hnf : ¬ (st.currentWidth + 1 + w.length > m ∧ st.currentLine ≠ []) := by
      intro hc
      omega
    have hstep : stepWord m sty false st w =
        ⟨st.result, st.currentLine ++ [⟨[spaceChar], sty⟩, ⟨w, sty⟩],
         st.currentWidth + 1 + w.length⟩ := by
      simp [stepWord, hnf]
    rw [stepWords, hstep, ih _ (by simp)
      (by show st.currentWidth + 1 + w.length +
            (ws.map (fun v => v.length + 1)).sum ≤ m
          omega)]
    simp only [WrapState.mk.injEq]
    refine ⟨trivial, ?_, ?_⟩
    · simp [List.append_assoc]
    · simp only [List.map_cons, List.sum_cons]
      omega

theorem spansText_pairFlatMap (sty : Style) (ws : List (List Char)) :
    spansText (ws.flatMap (fun v => [⟨[spaceChar], sty⟩, ⟨v, sty⟩])) =
      ws.flatMap (fun v => spaceChar :: v) := by
  induction ws with
  | nil => rfl
  | cons w ws ih =>
    simp only [List.flatMap_cons, spansText_append, ih]
    simp [spansText]

theorem wordsToSpans_text (sty : Style) (ws : List (List Char)) :
    spansText (wordsToSpans sty ws) = joinSp ws := by
  rcases ws with - | ⟨w, ws⟩
  · rfl
  · show spansText (⟨w, sty⟩ :: ws.flatMap (fun v => [⟨[spaceChar], sty⟩, ⟨v, sty⟩])) = _
    have h1 : spansText (⟨w, sty⟩ :: ws.flatMap (fun v => [⟨[spaceChar], sty⟩, ⟨v, sty⟩])) =
        w ++ spansText (ws.flatMap (fun v => [⟨[spaceChar], sty⟩, ⟨v, sty⟩])) := by
      simp [spansText]
    rw [h1, spansText_pairFlatMap]
    rfl

theorem wordsToSpans_styles (sty : Style) (ws : List (List Char)) :
    ∀ sp ∈ wordsToSpans sty ws, sp.style = sty := by
  rcases ws with - | ⟨w, ws⟩
  · intro sp h
    simp [wordsToSpans] at h
  · intro sp h
    simp only [wordsToSpans, List.mem_cons, List.mem_flatMap] at h
    rcases h with h | ⟨v, -, h⟩
    · rw [h]
    · simp at h
      rcases h with h | h <;> rw [h]

/-- Claim C4 (corrected): wrapping is idempotent on an already-short
single-run line: if the label line consists of one styled span whose width is
at most `maxWidth` (with `maxWidth ≥ 1`), `wrap_text` produces exactly one
line, whose concatenated text equals the input text and all of whose spans
carry the input span's style.  (The original claim promised one line equal to
the input for every short line: a multi-span line can be split because a
separator column is charged at each run boundary, see `wrap_idempotent_cex`,
and the output re-partitions the text into word and separator spans.) -/
theorem wrap_single_span_fits (c : List Char) (sty : Style) (m : Nat)
    (hm : 1 ≤ m) (hw : c.length ≤ m) :
    wrap_text ⟨[⟨c, sty⟩]⟩ m = [⟨wordsToSpans sty (splitOnSpace c)⟩] ∧
    lineText ⟨wordsToSpans sty (splitOnSpace c)⟩ = c ∧
    ∀ sp ∈ wordsToSpans sty (splitOnSpace c), sp.style = sty := by
  have hm0 : ¬ m = 0 := by omega
  rcases hsp : splitOnSpace c with - | ⟨w1, ws⟩
  · exact absurd hsp (splitOnSpace_ne_nil c)
  · have hlen : c.length = w1.length + (ws.map (fun v => v.length + 1)).sum := by
      have h1 := joinSp_cons_length w1 ws
      rw [← hsp, joinSp_splitOnSpace] at h1
      exact h1
    have hfirst : stepWord m sty true ⟨[], [], 0⟩ w1 =
        ⟨[], [⟨w1, sty⟩], w1.length⟩ := by
      simp [stepWord]
    have hfold : stepSpan m ⟨[], [], 0⟩ ⟨c, sty⟩ =
        ⟨[], ⟨w1, sty⟩ :: ws.flatMap (fun v => [⟨[spaceChar], sty⟩, ⟨v, sty⟩]),
         w1.length + (ws.map (fun v => v.length + 1)).sum⟩ := by
      rw [stepSpan]
      show stepWords m sty ⟨[], [], 0⟩ true (splitOnSpace c) = _
      rw [hsp, stepWords, hfirst,
        stepWords_fits m sty ws ⟨[], [⟨w1, sty⟩], w1.length⟩ (by simp)
          (by show w1.length + (ws.map (fun v => v.length + 1)).sum ≤ m
              omega)]
      rfl
    refine ⟨?_, ?_, wordsToSpans_styles sty (w1 :: ws)⟩
    · simp only [wrap_text, if_neg hm0, List.foldl_cons, List.foldl_nil, hfold]
      simp [wordsToSpans]
    · show spansText (wordsToSpans sty (w1 :: ws)) = c
      rw [wordsToSpans_text, ← hsp, joinSp_splitOnSpace]

/-- Claim C4 witness: the amended idempotence, instantiated on the single-run
line `"Hi there"` at width 10. -/
theorem wrap_single_span_fits_witness :
    wrap_text ⟨[⟨"Hi there".toList, styleDefault⟩]⟩ 10 =
      [⟨wordsToSpans styleDefault (splitOnSpace "Hi there".toList)⟩] ∧
    lineText ⟨wordsToSpans styleDefault (splitOnSpace "Hi there".toList)⟩ =
      "Hi there".toList ∧
    ∀ sp ∈ wordsToSpans styleDefault (splitOnSpace "Hi there".toList),
      sp.style = styleDefault :=
  wrap_single_span_fits "Hi there".toList styleDefault 10 (by decide) (by decide)

/-! ## Claim C6: degenerate areas paint nothing -/

/-- Claim C6 (confirmed): for every checkbox configuration and every area with
zero width or zero height, the render pipeline performs zero paint calls
(`render_checkbox` returns no paint operations) and leaves the buffer
unchanged (the base-style fill of `Widget::render` touches no cell of an
empty rectangle). -/
theorem render_empty_area_no_paint (cb : Checkbox) (b : Buffer) (area : Rect)
    (h : area.width = 0 ∨ area.height = 0) :
    render_checkbox cb area = [] ∧ widgetRender cb area b = b := by
  have hrc : render_checkbox cb area = [] := by
    unfold render_checkbox
    rw [if_pos h]
  refine ⟨hrc, ?_⟩
  unfold widgetRender
  rw [hrc]
  show setStyleRect area cb.style b = b
  funext i j
  unfold setStyleRect
  rw [if_neg]
  rintro ⟨h1, h2, h3, h4⟩
  rcases h with h | h <;> omega

/-- Claim C6 witness: a 0-wide, 5-tall area with the scenario checkbox. -/
theorem render_empty_area_no_paint_witness :
    render_checkbox cb7 rect0 = [] ∧
    widgetRender cb7 rect0 emptyBuffer = emptyBuffer :=
  render_empty_area_no_paint cb7 emptyBuffer rect0 (Or.inl rfl)

/-! ## Claim C7: the `"[X] Hi"` scenario -/

/-- Claim C7 (confirmed): rendering a checkbox with label `"Hi"`, checked
state, checked symbol `"[X]"` and unchecked symbol `"[ ]"` into a 10-by-1
area with the default configuration (label right, left/top alignment, no
wrapping) paints the text `"[X] Hi"` starting at column 0 of row 0 (the gap
column between glyph and label is left to the base fill, which shows a
blank), and the remaining 4 columns hold exactly the base-style-filled cells,
untouched by any paint call. -/
theorem render_scenario_right_label :
    readRow buf7 0 0 10 = "[X] Hi    ".toList ∧
    buf7 6 0 = fill7 6 0 ∧ buf7 7 0 = fill7 7 0 ∧
    buf7 8 0 = fill7 8 0 ∧ buf7 9 0 = fill7 9 0 := by
  decide

/-! ## Claim C8: per-row alignment in vertical layout -/

theorem vLineOp_x (ha : HorizontalAlignment) (area : Rect) (y : Nat)
    (l : Line) (op : PaintOp) (h : vLineOp ha area y l = some op) :
    op.rect.x = area.x + hAlignOffset ha area.width (lineWidth op.line) := by
  unfold vLineOp at h
  split at h
  · rw [← Option.some.inj h]
  · exact absurd h (by simp)

theorem mem_ite_singleton {α : Type} {c : Prop} [Decidable c] {a g : α}
    (h : a ∈ if c then [g] else []) : a = g := by
  split at h
  · exact List.mem_singleton.1 h
  · exact absurd h (List.not_mem_nil a)

/-- Claim C8 (confirmed): in vertical layout mode (label position top or
bottom), every paint call `render_vertical` emits — each label line and the
glyph — has a horizontal offset computed independently from the tri-way
alignment rule applied to that row's own content width (the painted line's
width), not a single block-level offset shared by all rows. -/
theorem render_vertical_per_row_alignment (cb : Checkbox) (area : Rect)
    (sp : Span) (label : Line)
    (h : cb.label_position = LabelPosition.Top ∨
         cb.label_position = LabelPosition.Bottom) :
    ∀ op ∈ render_vertical cb area sp label,
      op.rect.x = area.x +
        hAlignOffset cb.horizontal_alignment area.width (lineWidth op.line) := by
  intro op hop
  by_cases hE : area.height = 0 ∨ area.width = 0
  · rw [render_vertical, if_pos hE] at hop
    exact absurd hop (List.not_mem_nil op)
  · rcases h with h | h
    · rw [render_vertical, if_neg hE, h] at hop
      simp only at hop
      rcases List.mem_append.1 hop with h1 | h1
      · obtain ⟨p, -, hf⟩ := List.mem_filterMap.1 h1
        exact vLineOp_x _ _ _ _ _ hf
      · rw [mem_ite_singleton h1]
        simp [vGlyphRect, lineWidth, widthSpans, spanWidth]
    · rw [render_vertical, if_neg hE, h] at hop
      simp only at hop
      rcases List.mem_cons.1 hop with h1 | h1
      · rw [h1]
        simp [vGlyphRect, lineWidth, widthSpans, spanWidth]
      · obtain ⟨p, -, hf⟩ := List.mem_filterMap.1 h1
        exact vLineOp_x _ _ _ _ _ hf

/-- Claim C8 witness: in the 10-by-3 top-label centered example, the glyph
paint call sits at the offset the tri-way rule gives for its own width. -/
theorem render_vertical_per_row_alignment_witness :
    opV.rect.x = areaV.x +
      hAlignOffset cbV.horizontal_alignment areaV.width (lineWidth opV.line) :=
  render_vertical_per_row_alignment cbV areaV spV lblV (Or.inl rfl) opV (by decide)
